import Mathlib

/-!
Verification of the concurrent S3 bucket scanner (`s3xist_scanner.py`).

We shallowly embed the scanner's pure logic and its concurrency protocols:

* `check_bucket_existence` — the probe classifier (source lines 24-49).
* `list_bucket_contents` — the listing sub-operation (source lines 51-73),
  with the consumed `list_objects_v2` service contract modelled explicitly.
* `sink_lines` / `worker_process_item` — the per-item worker body including
  the sink record it appends (source lines 81-106).
* `candidates` — wordlist preparation in `main` (source lines 132-136),
  with Python's `str.strip` modelled character-exactly.
* a small-step queue/join/sentinel system for the coordinator/worker
  shutdown protocol (source lines 120-148), and
* a small-step lock/file system for the sink's mutual exclusion
  (source lines 95-101).

Remote responses (head check, listing, file open) are inputs chosen by the
environment; the embedded functions are total, mirroring the fact that the
Python functions catch the exceptions they catch and propagate the rest.
-/

namespace S3xist

/-! ## Python string stripping (`line.strip()`, source line 134) -/

/-- The ASCII characters Python's `str.strip()` removes by default. -/
def pySpace (c : Char) : Bool :=
  c == ' ' || c == '\t' || c == '\n' || c == '\r' || c == '\x0b' || c == '\x0c'

/-- Strip `pySpace` characters from both ends of a character list. -/
def stripChars (cs : List Char) : List Char :=
  ((cs.dropWhile pySpace).reverse.dropWhile pySpace).reverse

/-- Python's `s.strip()` on a string. -/
def stripPy (s : String) : String := ⟨stripChars s.data⟩

/-- The candidate names `main` enqueues from the wordlist (source lines
132-136): each line is stripped, and falsy (empty) results are skipped. -/
def candidates (lines : List String) : List String :=
  (lines.map stripPy).filter (fun s => s ≠ "")

/-! ## The probe classifier (`check_bucket_existence`, source lines 24-49) -/

/-- Outcome of the `head_bucket` call as seen by the `try` in
`check_bucket_existence`: success, a `ClientError` carrying an optional
error code (`e.response.get("Error", {}).get("Code")`), or any other
exception. -/
inductive HeadResp
  | success
  | clientError (code : Option String)
  | exn
deriving DecidableEq

/-- `check_bucket_existence` (source lines 24-49): success and code `'403'`
give `'FOUND'`, code `'404'` gives `'NOT_FOUND'`, every other client error
and every other exception gives `'ERROR'`. -/
def check_bucket_existence : HeadResp → String
  | .success => "FOUND"
  | .clientError code =>
      if code = some "403" then "FOUND"
      else if code = some "404" then "NOT_FOUND"
      else "ERROR"
  | .exn => "ERROR"

/-! ## The listing sub-operation (`list_bucket_contents`, source lines 51-73) -/

/-- Outcome of the `list_objects_v2` call as seen by `list_bucket_contents`:
a successful response whose `Contents` field is either present (with the
object keys) or absent, a `ClientError` with an optional code, or any other
exception. -/
inductive ListResp
  | ok (contents : Option (List String))
  | clientError (code : Option String)
  | exn
deriving DecidableEq

/-- `list_bucket_contents` (source lines 51-73): returns the keys when
`Contents` is present, `[]` (printing "Bucket is empty") when it is absent,
and `None` on any `ClientError` (access denied or otherwise) or any other
exception. -/
def list_bucket_contents : ListResp → Option (List String)
  | .ok (some keys) => some keys
  | .ok none => some []
  | .clientError _ => none
  | .exn => none

/-- Modelled contract of the external `list_objects_v2` service call, which
the scanner invokes with `MaxKeys=10` (source line 54): on success the
service returns at most `maxKeys` of the bucket's object keys, and omits
the `Contents` field entirely when no keys are returned. -/
def list_objects_v2 (objs : List String) (maxKeys : Nat) : ListResp :=
  if objs.take maxKeys = [] then .ok none else .ok (some (objs.take maxKeys))

/-! ## The worker's per-item body (source lines 81-106) -/

/-- Python truthiness of the worker's `found_objects` value
(`if found_objects:`, source line 99): `None` and `[]` are falsy. -/
def pyTruthyList : Option (List String) → Bool
  | none => false
  | some [] => false
  | some (_ :: _) => true

/-- Python truthiness of the `output_file` argument
(`if output_file:`, source line 95): `None` and `""` are falsy. -/
def pyTruthyStr : Option String → Bool
  | none => false
  | some s => s ≠ ""

/-- The lines the worker appends to the output file for one found bucket
(source lines 97-101): a `Bucket:` line, then one `  - Object:` line per
key when `found_objects` is truthy. -/
def sink_lines (bucket_name : String) (found_objects : Option (List String)) :
    List String :=
  (s!"Bucket: {bucket_name}") ::
    (if pyTruthyList found_objects then
      (found_objects.getD []).map (fun obj_key => s!"  - Object: {obj_key}")
    else [])

/-- Result of one iteration of the worker loop on a non-sentinel item:
the sink record appended, how many `task_done` calls occurred, and whether
an exception escaped the loop body. -/
structure ItemResult where
  sink : List String
  taskDones : Nat
  raised : Bool
deriving DecidableEq

/-- One iteration of the worker loop on a dequeued candidate (source lines
86-106). `probe` and `listResp` are the environment's responses to the two
network calls; `openOk` says whether `open(output_file, 'a')` and the
writes succeed. The probe and the listing catch all exceptions internally;
the sink write is not wrapped in `try`, so when it fails the exception
propagates and `q.task_done()` on line 106 is never reached. -/
def worker_process_item (should_list_objects : Bool) (output_file : Option String)
    (bucket_name : String) (probe : HeadResp) (listResp : ListResp)
    (openOk : Bool) : ItemResult :=
  let status := check_bucket_existence probe
  if status = "FOUND" then
    let found_objects : Option (List String) :=
      if should_list_objects then list_bucket_contents listResp else none
    if pyTruthyStr output_file then
      if openOk then
        { sink := sink_lines bucket_name found_objects, taskDones := 1, raised := false }
      else
        { sink := [], taskDones := 0, raised := true }
    else
      { sink := [], taskDones := 1, raised := false }
  else
    { sink := [], taskDones := 1, raised := false }

/-! ## Startup configuration (`main`, source lines 110-129)

`main` parses `--threads` with `type=int` and `default=20` and performs no
validation of the value: every parsed integer proceeds directly to the scan
(spawning `range(threads)` worker threads, which is empty for `threads ≤ 0`).
-/

/-- Whether `main` accepts a `--threads` value and proceeds to the scan
(source lines 110-129): there is no check, so every integer is accepted. -/
def threads_accepted (_threads : Int) : Bool := true

/-- Number of worker threads spawned by the `for _ in range(args.threads)`
loop (source line 126). -/
def workers_spawned (threads : Int) : Nat := threads.toNat

/-! ## The coordinator/worker queue protocol (source lines 81-84, 120-148)

A small-step system over one coordinator and `n` workers sharing a
`Queue`.  The coordinator streams the candidates, blocks in `q.join()`
until the unfinished-task count is zero, then puts one `None` sentinel per
worker (the `finally` block).  A worker blocks in `q.get()`, breaks on a
sentinel, and otherwise processes the item and calls `q.task_done()` (the
processing itself is pure, see `worker_process_item`, and is irrelevant to
the protocol).  A schedule chooses which agent steps; steps whose guard
blocks leave the state unchanged. -/

/-- Coordinator control point in `main` (source lines 131-148). -/
inductive CoordPhase
  | pushing (rest : List String)
  | joining
  | sentinels (k : Nat)
  | finished
deriving DecidableEq

/-- Worker control point in the `while True` loop (source lines 81-106). -/
inductive WorkerPhase
  | ready
  | working
  | done
deriving DecidableEq

/-- One worker's protocol state: the items it has popped so far and its
control point. -/
structure WorkerState where
  popped : List (Option String)
  phase : WorkerPhase
deriving DecidableEq

/-- Global state of the scan protocol.  `unfinished` is the queue's
unfinished-task counter (incremented by `put`, decremented by
`task_done`); `pushedC`/`pushedS`/`doneCount` count candidate puts,
sentinel puts and `task_done` calls. -/
structure ScanState where
  queue : List (Option String)
  unfinished : Nat
  coord : CoordPhase
  workers : List WorkerState
  pushedC : Nat
  pushedS : Nat
  doneCount : Nat
deriving DecidableEq

/-- Initial state: empty queue, all `n` workers blocked in `q.get()`, the
coordinator about to stream the wordlist's candidates. -/
def initScan (lines : List String) (n : Nat) : ScanState :=
  { queue := [], unfinished := 0, coord := .pushing (candidates lines),
    workers := List.replicate n ⟨[], .ready⟩,
    pushedC := 0, pushedS := 0, doneCount := 0 }

/-- One coordinator step: `q.put` of the next candidate, the `q.join()`
barrier (passable only when `unfinished = 0`), then the `finally` block's
`n` sentinel puts (source lines 131-148).  Note `q.put(None)` also
increments the unfinished counter, as in `queue.Queue`. -/
def coordStep (n : Nat) (s : ScanState) : ScanState :=
  match s.coord with
  | .pushing [] => { s with coord := .joining }
  | .pushing (c :: rest) =>
      { s with queue := s.queue ++ [some c], unfinished := s.unfinished + 1,
               pushedC := s.pushedC + 1, coord := .pushing rest }
  | .joining => if s.unfinished = 0 then { s with coord := .sentinels n } else s
  | .sentinels 0 => { s with coord := .finished }
  | .sentinels (k + 1) =>
      { s with queue := s.queue ++ [none], unfinished := s.unfinished + 1,
               pushedS := s.pushedS + 1, coord := .sentinels k }
  | .finished => s

/-- Action of worker `w` (state `ws`): a blocking `q.get()` from the
queue's head (breaking out of the loop on `None`, source lines 82-84), or
the `q.task_done()` acknowledgment ending the iteration (source line 106). -/
def workerStepGo (s : ScanState) (w : Nat) (ws : WorkerState) : ScanState :=
  match ws.phase with
  | .ready =>
      match s.queue with
      | [] => s
      | x :: rest =>
          { s with queue := rest,
                   workers := s.workers.set w
                     ⟨ws.popped ++ [x], if x = none then .done else .working⟩ }
  | .working =>
      { s with unfinished := s.unfinished - 1, doneCount := s.doneCount + 1,
               workers := s.workers.set w ⟨ws.popped, .ready⟩ }
  | .done => s

/-- One step of worker `w` (a no-op for an out-of-range id). -/
def workerStep (s : ScanState) (w : Nat) : ScanState :=
  match s.workers.get? w with
  | none => s
  | some ws => workerStepGo s w ws

/-- One scheduled step: `none` steps the coordinator, `some w` steps
worker `w`. -/
def scanStep (n : Nat) (s : ScanState) (ag : Option Nat) : ScanState :=
  match ag with
  | none => coordStep n s
  | some w => workerStep s w

/-- Run the scan protocol under a schedule. -/
def scanRun (lines : List String) (n : Nat) (sched : List (Option Nat)) : ScanState :=
  sched.foldl (scanStep n) (initScan lines n)

/-- Number of sentinels (`None`s) in a list of queue items. -/
def nNone (l : List (Option String)) : Nat := l.countP (fun x => x.isNone)

/-- Number of real candidates (`some`s) in a list of queue items. -/
def nSome (l : List (Option String)) : Nat := l.countP (fun x => x.isSome)

/-- Whether the coordinator has passed the `q.join()` barrier. -/
def pastJoin : CoordPhase → Bool
  | .sentinels _ => true
  | .finished => true
  | _ => false

/-! ## The sink's lock protocol (source lines 95-101)

A small-step system for `n` workers each appending one record to the
shared output file while holding the shared lock: the `with lock:` block
wraps the whole open-write-close sequence, so each worker's script is
`acquire`, one `append` per line of its record, `release`.  Appends hit
the shared file unconditionally — only the `acquire` guard provides
mutual exclusion. -/

/-- An atomic action of the sink-writing critical section. -/
inductive SinkAct
  | acquire
  | append (line : String)
  | release
deriving DecidableEq

/-- The script a worker executes to append one record (source lines
96-101): take the lock, append each line, drop the lock. -/
def sinkScript (block : List String) : List SinkAct :=
  .acquire :: (block.map .append ++ [.release])

/-- Global state of the sink protocol: the lock owner (if any), the lines
appended to the output file so far, and each worker's remaining script. -/
structure SinkState where
  lock : Option Nat
  file : List String
  progs : List (List SinkAct)
deriving DecidableEq

/-- Initial sink state for one record per worker. -/
def sinkInit (blocks : List (List String)) : SinkState :=
  { lock := none, file := [], progs := blocks.map sinkScript }

/-- One step of worker `w` in the sink protocol.  `acquire` blocks while
the lock is held; `append` and `release` execute unconditionally. -/
def sinkStep (s : SinkState) (w : Nat) : SinkState :=
  match s.progs.get? w with
  | some (.acquire :: rest) =>
      if s.lock = none then { s with lock := some w, progs := s.progs.set w rest }
      else s
  | some (.append line :: rest) =>
      { s with file := s.file ++ [line], progs := s.progs.set w rest }
  | some (.release :: rest) =>
      { s with lock := none, progs := s.progs.set w rest }
  | _ => s

/-- Run the sink protocol under a schedule of worker ids. -/
def sinkRun (blocks : List (List String)) (sched : List Nat) : SinkState :=
  sched.foldl sinkStep (sinkInit blocks)

/-- All workers have finished their record. -/
def sinkAllDone (s : SinkState) : Bool := s.progs.all (fun p => p.isEmpty)

/-- The records a set of workers write concurrently, one found bucket
(with its listed keys) per worker, each rendered by `sink_lines`. -/
def sinkBlocks (found : List (String × Option (List String))) : List (List String) :=
  found.map (fun p => sink_lines p.1 p.2)

/-! ## Invariants of the two protocols -/

/-- Whether a worker is between `q.get()` and `q.task_done()`. -/
def isWorking (ws : WorkerState) : Bool := decide (ws.phase = .working)

/-- Sentinels popped by one worker. -/
def poppedNoneOf (ws : WorkerState) : Nat := nNone ws.popped

/-- Candidates popped by one worker. -/
def poppedSomeOf (ws : WorkerState) : Nat := nSome ws.popped

/-- Number of workers currently between `q.get()` and `q.task_done()`. -/
def workingCount (s : ScanState) : Nat := s.workers.countP isWorking

/-- Total sentinels popped across all workers. -/
def poppedNone (s : ScanState) : Nat := (s.workers.map poppedNoneOf).sum

/-- Total candidates popped across all workers. -/
def poppedSome (s : ScanState) : Nat := (s.workers.map poppedSomeOf).sum

/-- Relation between the coordinator's control point and the number of
candidates pushed so far. -/
def coordCProp (lines : List String) (s : ScanState) : Prop :=
  match s.coord with
  | .pushing rest => ∃ pre, candidates lines = pre ++ rest ∧ s.pushedC = pre.length
  | _ => s.pushedC = (candidates lines).length

/-- Relation between the coordinator's control point and the number of
sentinels pushed so far. -/
def coordSProp (n : Nat) (s : ScanState) : Prop :=
  match s.coord with
  | .pushing _ => s.pushedS = 0
  | .joining => s.pushedS = 0
  | .sentinels k => k ≤ n ∧ s.pushedS = n - k
  | .finished => s.pushedS = n

/-- Shape of one worker's pop history: a terminated worker popped exactly
one sentinel, as its final pop; a live worker has popped no sentinel. -/
def workerPoppedProp (ws : WorkerState) : Prop :=
  (ws.phase = .done → ∃ pre, ws.popped = pre ++ [none] ∧ ∀ x ∈ pre, x ≠ none)
  ∧ (ws.phase ≠ .done → ∀ x ∈ ws.popped, x ≠ none)

/-- Inductive invariant of the scan protocol. -/
def ScanInv (lines : List String) (n : Nat) (s : ScanState) : Prop :=
  s.workers.length = n
  ∧ coordCProp lines s
  ∧ coordSProp n s
  ∧ s.unfinished + s.doneCount = s.pushedC + s.pushedS
  ∧ nNone s.queue + poppedNone s = s.pushedS
  ∧ nSome s.queue + poppedSome s = s.pushedC
  ∧ s.doneCount + workingCount s = poppedSome s
  ∧ (∀ ws ∈ s.workers, workerPoppedProp ws)
  ∧ (pastJoin s.coord = true →
      s.doneCount = (candidates lines).length ∧ nSome s.queue = 0 ∧ workingCount s = 0)

/-- Inductive invariant of the sink protocol: the file is always a
concatenation of the complete records of the workers that have finished
(in completion order) followed by a prefix of the lock holder's record;
lock-free states have no partial record at all. -/
def SinkInv (blocks : List (List String)) (s : SinkState) : Prop :=
  s.progs.length = blocks.length
  ∧ ∃ done : List Nat,
      done.Nodup
      ∧ (∀ i ∈ done, i < blocks.length)
      ∧ (∀ i, i < blocks.length → (i ∈ done ↔ s.progs.get? i = some []))
      ∧ match s.lock with
        | none =>
            s.file = (done.map (fun i => blocks.getD i [])).flatten
            ∧ ∀ i, i < blocks.length → i ∉ done →
                s.progs.get? i = some (sinkScript (blocks.getD i []))
        | some h =>
            h < blocks.length ∧ h ∉ done
            ∧ (∃ k, k ≤ (blocks.getD h []).length
                ∧ s.progs.get? h
                    = some (((blocks.getD h []).drop k).map .append ++ [.release])
                ∧ s.file = (done.map (fun i => blocks.getD i [])).flatten
                    ++ (blocks.getD h []).take k)
            ∧ ∀ i, i < blocks.length → i ∉ done → i ≠ h →
                s.progs.get? i = some (sinkScript (blocks.getD i []))

/-! ## Helper lemmas -/

theorem dropWhile_head_false (p : α → Bool) :
    ∀ (l : List α) (a : α) (t : List α), l.dropWhile p = a :: t → p a = false := by
  intro l
  induction l with
  | nil => intro a t h; simp [List.dropWhile] at h
  | cons x xs ih =>
    intro a t h
    rw [List.dropWhile_cons] at h
    by_cases hx : p x
    · rw [if_pos hx] at h; exact ih a t h
    · rw [if_neg hx] at h
      obtain ⟨h1, -⟩ := List.cons.injEq .. ▸ h
      subst h1
      simpa using hx

theorem dropWhile_dropWhile (p : α → Bool) (l : List α) :
    (l.dropWhile p).dropWhile p = l.dropWhile p := by
  cases h : l.dropWhile p with
  | nil => rfl
  | cons a t =>
    rw [List.dropWhile_cons, dropWhile_head_false p l a t h]
    simp

theorem rev_dropWhile_rev_clean (p : α → Bool) (A : List α) (hA : A.dropWhile p = A) :
    ((A.reverse.dropWhile p).reverse).dropWhile p = (A.reverse.dropWhile p).reverse := by
  cases hBr : (A.reverse.dropWhile p).reverse with
  | nil => rfl
  | cons a t =>
    have hsplit := List.takeWhile_append_dropWhile p A.reverse
    have hA2 : A = (A.reverse.dropWhile p).reverse ++ (A.reverse.takeWhile p).reverse := by
      conv_lhs => rw [← List.reverse_reverse A, ← hsplit]
      rw [List.reverse_append]
    have ha : p a = false := by
      apply dropWhile_head_false p A a (t ++ (A.reverse.takeWhile p).reverse)
      rw [hA]
      conv_lhs => rw [hA2]
      rw [hBr]
      simp
    rw [List.dropWhile_cons, ha]
    simp

theorem stripChars_idem (cs : List Char) : stripChars (stripChars cs) = stripChars cs := by
  have hA : (cs.dropWhile pySpace).dropWhile pySpace = cs.dropWhile pySpace :=
    dropWhile_dropWhile _ _
  unfold stripChars
  rw [rev_dropWhile_rev_clean pySpace (cs.dropWhile pySpace) hA,
    List.reverse_reverse, dropWhile_dropWhile]

theorem stripPy_idem (s : String) : stripPy (stripPy s) = stripPy s :=
  congrArg String.mk (stripChars_idem s.data)

theorem sum_map_set (f : α → Nat) (l : List α) (w : Nat) (a b : α)
    (h : l.get? w = some a) :
    ((l.set w b).map f).sum + f a = (l.map f).sum + f b := by
  induction l generalizing w with
  | nil => simp at h
  | cons x xs ih =>
    cases w with
    | zero =>
      rw [List.get?_cons_zero] at h
      obtain rfl := Option.some.inj h
      simp only [List.set_cons_zero, List.map_cons, List.sum_cons]
      omega
    | succ w' =>
      rw [List.get?_cons_succ] at h
      have := ih w' h
      simp only [List.set_cons_succ, List.map_cons, List.sum_cons]
      omega

theorem countP_set (p : α → Bool) (l : List α) (w : Nat) (a b : α)
    (h : l.get? w = some a) :
    (l.set w b).countP p + (if p a then 1 else 0)
      = l.countP p + (if p b then 1 else 0) := by
  induction l generalizing w with
  | nil => simp at h
  | cons x xs ih =>
    cases w with
    | zero =>
      rw [List.get?_cons_zero] at h
      obtain rfl := Option.some.inj h
      simp only [List.set_cons_zero, List.countP_cons]
      omega
    | succ w' =>
      rw [List.get?_cons_succ] at h
      have := ih w' h
      simp only [List.set_cons_succ, List.countP_cons]
      omega

theorem countP_set_ft (p : α → Bool) (l : List α) (w : Nat) (a b : α)
    (h : l.get? w = some a) (ha : p a = false) (hb : p b = true) :
    (l.set w b).countP p = l.countP p + 1 := by
  have hx := countP_set p l w a b h
  rw [ha, hb] at hx
  simpa using hx

theorem countP_set_tf (p : α → Bool) (l : List α) (w : Nat) (a b : α)
    (h : l.get? w = some a) (ha : p a = true) (hb : p b = false) :
    (l.set w b).countP p + 1 = l.countP p := by
  have hx := countP_set p l w a b h
  rw [ha, hb] at hx
  simpa using hx

theorem countP_set_ff (p : α → Bool) (l : List α) (w : Nat) (a b : α)
    (h : l.get? w = some a) (ha : p a = false) (hb : p b = false) :
    (l.set w b).countP p = l.countP p := by
  have hx := countP_set p l w a b h
  rw [ha, hb] at hx
  simpa using hx

theorem countP_replicate (p : α → Bool) (n : Nat) (x : α) :
    (List.replicate n x).countP p = if p x then n else 0 := by
  induction n with
  | zero => simp
  | succ m ih =>
    by_cases hp : p x <;> simp [List.replicate_succ, List.countP_cons, hp, ih]

theorem countP_pos_of_get? (p : α → Bool) (l : List α) (w : Nat) (a : α)
    (h : l.get? w = some a) (hp : p a = true) : 0 < l.countP p :=
  List.countP_pos.2 ⟨a, List.get?_mem h, hp⟩

theorem nNone_snoc (l : List (Option String)) (x : Option String) :
    nNone (l ++ [x]) = nNone l + (if x.isNone then 1 else 0) := by
  simp [nNone, List.countP_append, List.countP_cons]

theorem nSome_snoc (l : List (Option String)) (x : Option String) :
    nSome (l ++ [x]) = nSome l + (if x.isSome then 1 else 0) := by
  simp [nSome, List.countP_append, List.countP_cons]

theorem nNone_cons (x : Option String) (l : List (Option String)) :
    nNone (x :: l) = nNone l + (if x.isNone then 1 else 0) := by
  simp [nNone, List.countP_cons]

theorem nSome_cons (x : Option String) (l : List (Option String)) :
    nSome (x :: l) = nSome l + (if x.isSome then 1 else 0) := by
  simp [nSome, List.countP_cons]

theorem sink_lines_eq_map (name : String) (fo : Option (List String)) :
    sink_lines name fo
      = s!"Bucket: {name}" :: (fo.getD []).map (fun k => s!"  - Object: {k}") := by
  cases fo with
  | none => rfl
  | some ks => cases ks with
    | nil => rfl
    | cons k t => rfl

/-! ## Claim theorems (pure components) -/

/-- C1: the classifier `check_bucket_existence` is total (the embedding is
a total function, mirroring that the Python function catches `ClientError`
and every other exception) and returns exactly one of `FOUND`, `NOT_FOUND`,
`ERROR`; a 403 response maps to `FOUND`, a 404 to `NOT_FOUND`, and every
other client error or transport-level exception to `ERROR`. -/
theorem classifier_total_and_calibrated (r : HeadResp) :
    (check_bucket_existence r = "FOUND" ∨ check_bucket_existence r = "NOT_FOUND"
      ∨ check_bucket_existence r = "ERROR")
    ∧ check_bucket_existence .success = "FOUND"
    ∧ check_bucket_existence (.clientError (some "403")) = "FOUND"
    ∧ check_bucket_existence (.clientError (some "404")) = "NOT_FOUND"
    ∧ (∀ code : Option String, code ≠ some "403" → code ≠ some "404" →
        check_bucket_existence (.clientError code) = "ERROR")
    ∧ check_bucket_existence .exn = "ERROR" := by
  refine ⟨?_, rfl, by decide, by decide, ?_, rfl⟩
  · cases r with
    | success => exact .inl rfl
    | exn => exact .inr (.inr rfl)
    | clientError code =>
      by_cases h3 : code = some "403"
      · exact .inl (by simp [check_bucket_existence, h3])
      · by_cases h4 : code = some "404"
        · exact .inr (.inl (by simp [check_bucket_existence, h3, h4]))
        · exact .inr (.inr (by simp [check_bucket_existence, h3, h4]))
  · intro code h3 h4
    simp [check_bucket_existence, h3, h4]

/-- Witness for C1 at the concrete code `500`. -/
theorem classifier_witness :
    (some "500" : Option String) ≠ some "403"
    ∧ (some "500" : Option String) ≠ some "404"
    ∧ check_bucket_existence (.clientError (some "500")) = "ERROR" :=
  ⟨by decide, by decide,
    (classifier_total_and_calibrated .success).2.2.2.2.1 (some "500") (by decide) (by decide)⟩

/-- C4: a successful listing returns at most 10 keys, because the call
passes `MaxKeys=10` and the service honors the cap. -/
theorem listing_capped_at_ten (objs keys : List String)
    (h : list_bucket_contents (list_objects_v2 objs 10) = some keys) :
    keys.length ≤ 10 := by
  unfold list_objects_v2 at h
  by_cases he : objs.take 10 = []
  · rw [if_pos he] at h
    simp only [list_bucket_contents] at h
    obtain rfl : ([] : List String) = keys := Option.some.inj h
    simp
  · rw [if_neg he] at h
    simp only [list_bucket_contents] at h
    have hk : objs.take 10 = keys := Option.some.inj h
    rw [← hk]
    simp [List.length_take]

/-- Witness for C4 on a 12-object bucket. -/
theorem listing_cap_witness :
    list_bucket_contents (list_objects_v2
        ["k01", "k02", "k03", "k04", "k05", "k06", "k07", "k08", "k09", "k10", "k11", "k12"] 10)
      = some ["k01", "k02", "k03", "k04", "k05", "k06", "k07", "k08", "k09", "k10"]
    ∧ (["k01", "k02", "k03", "k04", "k05", "k06", "k07", "k08", "k09", "k10"]
        : List String).length ≤ 10 :=
  ⟨by decide,
    listing_capped_at_ten
      ["k01", "k02", "k03", "k04", "k05", "k06", "k07", "k08", "k09", "k10", "k11", "k12"]
      ["k01", "k02", "k03", "k04", "k05", "k06", "k07", "k08", "k09", "k10"]
      (by decide)⟩

/-- C5: with the output file configured, a FOUND candidate appends exactly
one record — a `Bucket:` line followed by one `  - Object:` line per listed
key directly beneath it — and a candidate that is not FOUND (or a run with
no output file) appends nothing. -/
theorem sink_record_only_for_found (sl : Bool) (out : Option String) (name : String)
    (probe : HeadResp) (lr : ListResp) :
    (check_bucket_existence probe = "FOUND" → pyTruthyStr out = true →
      (worker_process_item sl out name probe lr true).sink
        = s!"Bucket: {name}" ::
            ((if sl then list_bucket_contents lr else none).getD []).map
              (fun k => s!"  - Object: {k}"))
    ∧ (check_bucket_existence probe ≠ "FOUND" →
        (worker_process_item sl out name probe lr true).sink = [])
    ∧ (pyTruthyStr out = false →
        (worker_process_item sl out name probe lr true).sink = []) := by
  refine ⟨?_, ?_, ?_⟩
  · intro hf ho
    simp [worker_process_item, hf, ho, sink_lines_eq_map]
  · intro hnf
    simp [worker_process_item, hnf]
  · intro ho
    by_cases hf : check_bucket_existence probe = "FOUND" <;>
      simp [worker_process_item, hf, ho]

/-- Witness for C5 with a found bucket holding two listed keys. -/
theorem sink_record_witness :
    check_bucket_existence .success = "FOUND"
    ∧ pyTruthyStr (some "res.txt") = true
    ∧ (worker_process_item true (some "res.txt") "pub" .success
          (.ok (some ["k1", "k2"])) true).sink
        = ["Bucket: pub", "  - Object: k1", "  - Object: k2"] := by
  refine ⟨rfl, by decide, ?_⟩
  have h := (sink_record_only_for_found true (some "res.txt") "pub" .success
    (.ok (some ["k1", "k2"]))).1 rfl (by decide)
  rw [h]
  decide

/-- C6: the listing distinguishes an empty bucket (`[]`) from a denied or
failed listing (`None`); both `ClientError` and transport exceptions are
absorbed (the embedding is total), and an absent listing contributes no
object lines to the sink record. -/
theorem listing_empty_vs_failed :
    list_bucket_contents (.ok none) = some []
    ∧ list_bucket_contents (.ok (some [])) = some []
    ∧ (∀ code : Option String, list_bucket_contents (.clientError code) = none)
    ∧ list_bucket_contents .exn = none
    ∧ (∀ name : String, sink_lines name none = [s!"Bucket: {name}"])
    ∧ (∀ (out : Option String) (name : String) (code : Option String),
        pyTruthyStr out = true →
        (worker_process_item true out name .success (.clientError code) true).sink
          = [s!"Bucket: {name}"]) := by
  refine ⟨rfl, rfl, fun code => rfl, rfl, fun name => rfl, ?_⟩
  intro out name code ho
  simp [worker_process_item, check_bucket_existence, ho, list_bucket_contents,
    sink_lines_eq_map]

/-- Witness for C6: an access-denied listing writes only the bucket line. -/
theorem listing_empty_vs_failed_witness :
    pyTruthyStr (some "res.txt") = true
    ∧ (worker_process_item true (some "res.txt") "pub" .success
          (.clientError (some "AccessDenied")) true).sink
        = ["Bucket: pub"] := by
  refine ⟨by decide, ?_⟩
  have h := listing_empty_vs_failed.2.2.2.2.2
    (some "res.txt") "pub" (some "AccessDenied") (by decide)
  rw [h]
  decide

/-- C7: every enqueued candidate is a stripped, non-empty line (so empty
and whitespace-only lines are never submitted), and duplicates survive:
a non-empty name occurs in the candidate list exactly as often as among
the stripped lines. -/
theorem candidates_trimmed_nonempty_dup (lines : List String) :
    (∀ c ∈ candidates lines, c ≠ "" ∧ stripPy c = c)
    ∧ (∀ c : String, c ≠ "" →
        (candidates lines).count c = (lines.map stripPy).count c) := by
  constructor
  · intro c hc
    unfold candidates at hc
    rw [List.mem_filter] at hc
    obtain ⟨hmem, hne⟩ := hc
    rw [List.mem_map] at hmem
    obtain ⟨l, -, rfl⟩ := hmem
    exact ⟨by simpa using hne, stripPy_idem l⟩
  · intro c hc
    unfold candidates
    exact List.count_filter (by simpa using hc)

/-- Witness for C7: a wordlist with padding, blank and duplicate lines. -/
theorem candidates_witness :
    ("a" : String) ≠ ""
    ∧ (candidates ["  a  ", "", "   ", "a", "b"]).count "a"
        = ((["  a  ", "", "   ", "a", "b"] : List String).map stripPy).count "a" :=
  ⟨by decide, (candidates_trimmed_nonempty_dup _).2 "a" (by decide)⟩

/-- C9: the sink guard `if found_objects:` treats the empty key list and
the absent (`None`) listing result identically, so the record for a found
bucket whose listing came back empty is byte-identical to the record for
one whose listing was denied or failed: just the `Bucket:` line. -/
theorem sink_empty_list_eq_absent (name : String) (out : Option String)
    (code : Option String) :
    (worker_process_item true out name .success (.ok none) true).sink
      = (worker_process_item true out name .success (.clientError code) true).sink
    ∧ sink_lines name (some []) = sink_lines name none
    ∧ sink_lines name (some []) = [s!"Bucket: {name}"] := by
  refine ⟨?_, rfl, rfl⟩
  cases htr : pyTruthyStr out <;>
    simp [worker_process_item, check_bucket_existence, htr, list_bucket_contents,
      sink_lines, pyTruthyList]

/-- C10 (amended): the worker acknowledges a dequeued candidate with
exactly one `task_done` whenever the sink write does not raise — in
particular always when the candidate is not FOUND or no output file is
configured, since the probe and the listing absorb all their exceptions —
but a failing `open`/`write` in the sink path propagates and skips the
acknowledgment. -/
theorem worker_ack_exactly_once (sl : Bool) (out : Option String) (name : String)
    (probe : HeadResp) (lr : ListResp) (openOk : Bool) :
    ((worker_process_item sl out name probe lr openOk).taskDones = 1
      ∨ (worker_process_item sl out name probe lr openOk).raised = true)
    ∧ (openOk = true →
        (worker_process_item sl out name probe lr openOk).taskDones = 1
        ∧ (worker_process_item sl out name probe lr openOk).raised = false)
    ∧ (pyTruthyStr out = false →
        (worker_process_item sl out name probe lr openOk).taskDones = 1)
    ∧ (check_bucket_existence probe ≠ "FOUND" →
        (worker_process_item sl out name probe lr openOk).taskDones = 1) := by
  by_cases hf : check_bucket_existence probe = "FOUND" <;>
    cases ho : pyTruthyStr out <;> cases openOk <;>
      simp [worker_process_item, hf, ho]

/-- Counterexample to C10 as stated: a FOUND candidate with an output file
configured whose sink write fails is never acknowledged (`taskDones = 0`)
and the exception escapes the loop body. -/
theorem worker_ack_skipped_cex :
    (worker_process_item true (some "out.txt") "pub" .success (.ok none) false).taskDones = 0
    ∧ (worker_process_item true (some "out.txt") "pub" .success (.ok none) false).raised
        = true := by
  constructor <;> decide

/-- Witness for the amended C10 at a concrete successful write. -/
theorem worker_ack_witness :
    (worker_process_item true (some "out.txt") "pub" .success (.ok none) true).taskDones = 1 :=
  ((worker_ack_exactly_once true (some "out.txt") "pub" .success (.ok none) true).2.1 rfl).1

/-! ## Invariant proofs for the scan protocol -/

theorem scanInv_init (lines : List String) (n : Nat) : ScanInv lines n (initScan lines n) := by
  refine ⟨by simp [initScan], ⟨[], by simp, rfl⟩, by simp [coordSProp, initScan],
    by simp [initScan], ?_, ?_, ?_, ?_, ?_⟩
  · show nNone [] + poppedNone (initScan lines n) = 0
    simp [nNone, poppedNone, poppedNoneOf, initScan, List.map_replicate, List.sum_replicate]
  · show nSome [] + poppedSome (initScan lines n) = 0
    simp [nSome, poppedSome, poppedSomeOf, initScan, List.map_replicate, List.sum_replicate]
  · show 0 + workingCount (initScan lines n) = poppedSome (initScan lines n)
    simp [workingCount, poppedSome, poppedSomeOf, initScan, countP_replicate, isWorking,
      List.map_replicate, List.sum_replicate, nSome]
  · intro ws hws
    rw [show (initScan lines n).workers = List.replicate n ⟨[], .ready⟩ from rfl,
      List.mem_replicate] at hws
    obtain ⟨-, rfl⟩ := hws
    exact ⟨fun h => by simp at h, fun _ x hx => by simp at hx⟩
  · intro hp
    simp [initScan, pastJoin] at hp

theorem scanInv_step (lines : List String) (n : Nat) (s : ScanState) (ag : Option Nat)
    (h : ScanInv lines n s) : ScanInv lines n (scanStep n s ag) := by
  obtain ⟨hw, hcc, hcs, hunf, hqn, hqs, hack, hpw, hpj⟩ := h
  cases ag with
  | none =>
    show ScanInv lines n (coordStep n s)
    cases hcoord : s.coord with
    | pushing rest =>
      have hcc2 : ∃ pre, candidates lines = pre ++ rest ∧ s.pushedC = pre.length := by
        have h := hcc
        unfold coordCProp at h
        rw [hcoord] at h
        exact h
      have hcs2 : s.pushedS = 0 := by
        have h := hcs
        unfold coordSProp at h
        rw [hcoord] at h
        exact h
      obtain ⟨pre, hpre, hlen⟩ := hcc2
      cases rest with
      | nil =>
        have hstep : coordStep n s = { s with coord := .joining } := by
          unfold coordStep
          rw [hcoord]
        rw [hstep]
        refine ⟨hw, ?_, hcs2, hunf, hqn, hqs, hack, hpw, ?_⟩
        · show s.pushedC = (candidates lines).length
          rw [List.append_nil] at hpre
          rw [hpre]
          exact hlen
        · intro hp
          simp [pastJoin] at hp
      | cons c rest2 =>
        have hstep : coordStep n s = { s with queue := s.queue ++ [some c], unfinished := s.unfinished + 1, pushedC := s.pushedC + 1, coord := .pushing rest2 } := by
          unfold coordStep
          rw [hcoord]
        rw [hstep]
        refine ⟨hw, ?_, hcs2, ?_, ?_, ?_, ?_, hpw, ?_⟩
        · exact ⟨pre ++ [c], by rw [hpre]; simp, by simp [hlen]⟩
        · show s.unfinished + 1 + s.doneCount = s.pushedC + 1 + s.pushedS
          omega
        · show nNone (s.queue ++ [some c]) + poppedNone s = s.pushedS
          have h1 := nNone_snoc s.queue (some c)
          simp at h1
          omega
        · show nSome (s.queue ++ [some c]) + poppedSome s = s.pushedC + 1
          have h1 := nSome_snoc s.queue (some c)
          simp at h1
          omega
        · show s.doneCount + workingCount s = poppedSome s
          exact hack
        · intro hp
          simp [pastJoin] at hp
    | joining =>
      have hccK : s.pushedC = (candidates lines).length := by
        have h := hcc
        unfold coordCProp at h
        rw [hcoord] at h
        exact h
      have hcs2 : s.pushedS = 0 := by
        have h := hcs
        unfold coordSProp at h
        rw [hcoord] at h
        exact h
      by_cases hu : s.unfinished = 0
      · have hstep : coordStep n s = { s with coord := .sentinels n } := by
          unfold coordStep
          rw [if_pos hu, hcoord]
        rw [hstep]
        refine ⟨hw, hccK, ⟨le_refl n, ?_⟩, hunf, hqn, hqs, hack, hpw, ?_⟩
        · show s.pushedS = n - n
          omega
        · intro _
          have h1 : s.doneCount = (candidates lines).length := by omega
          refine ⟨h1, ?_, ?_⟩
          · show nSome s.queue = 0
            have h2 : s.doneCount + workingCount s = poppedSome s := hack
            have h3 : nSome s.queue + poppedSome s = s.pushedC := hqs
            omega
          · show workingCount s = 0
            have h2 : s.doneCount + workingCount s = poppedSome s := hack
            have h3 : nSome s.queue + poppedSome s = s.pushedC := hqs
            omega
      · have hstep : coordStep n s = s := by
          unfold coordStep
          rw [if_neg hu, hcoord]
        rw [hstep]
        exact ⟨hw, hcc, hcs, hunf, hqn, hqs, hack, hpw, hpj⟩
    | sentinels k =>
      have hccK : s.pushedC = (candidates lines).length := by
        have h := hcc
        unfold coordCProp at h
        rw [hcoord] at h
        exact h
      have hcs2 : k ≤ n ∧ s.pushedS = n - k := by
        have h := hcs
        unfold coordSProp at h
        rw [hcoord] at h
        exact h
      obtain ⟨hkn, hps⟩ := hcs2
      have hpjold := hpj (by rw [hcoord]; rfl)
      obtain ⟨hd, hq0, hw0⟩ := hpjold
      cases k with
      | zero =>
        have hstep : coordStep n s = { s with coord := .finished } := by
          unfold coordStep
          rw [hcoord]
        rw [hstep]
        refine ⟨hw, hccK, ?_, hunf, hqn, hqs, hack, hpw, fun _ => ⟨hd, hq0, hw0⟩⟩
        show s.pushedS = n
        omega
      | succ k2 =>
        have hstep : coordStep n s = { s with queue := s.queue ++ [none], unfinished := s.unfinished + 1, pushedS := s.pushedS + 1, coord := .sentinels k2 } := by
          unfold coordStep
          rw [hcoord]
        rw [hstep]
        have h1 := nNone_snoc s.queue none
        simp at h1
        have h2 := nSome_snoc s.queue none
        simp at h2
        refine ⟨hw, hccK, ⟨by omega, ?_⟩, ?_, ?_, ?_, hack, hpw, ?_⟩
        · show s.pushedS + 1 = n - k2
          omega
        · show s.unfinished + 1 + s.doneCount = s.pushedC + (s.pushedS + 1)
          omega
        · show nNone (s.queue ++ [none]) + poppedNone s = s.pushedS + 1
          omega
        · show nSome (s.queue ++ [none]) + poppedSome s = s.pushedC
          omega
        · intro _
          refine ⟨hd, ?_, hw0⟩
          show nSome (s.queue ++ [none]) = 0
          omega
    | finished =>
      have hstep : coordStep n s = s := by
        unfold coordStep
        rw [hcoord]
      rw [hstep]
      exact ⟨hw, hcc, hcs, hunf, hqn, hqs, hack, hpw, hpj⟩
  | some w =>
    show ScanInv lines n (workerStep s w)
    cases hget : s.workers.get? w with
    | none =>
      have hstep : workerStep s w = s := by
        unfold workerStep
        rw [hget]
      rw [hstep]
      exact ⟨hw, hcc, hcs, hunf, hqn, hqs, hack, hpw, hpj⟩
    | some ws =>
      have hmem : ws ∈ s.workers := List.get?_mem hget
      have hgo : workerStep s w = workerStepGo s w ws := by
        unfold workerStep
        rw [hget]
      rw [hgo]
      cases hph : ws.phase with
      | done =>
        have hstep : workerStepGo s w ws = s := by
          unfold workerStepGo
          rw [hph]
        rw [hstep]
        exact ⟨hw, hcc, hcs, hunf, hqn, hqs, hack, hpw, hpj⟩
      | ready =>
        cases hq : s.queue with
        | nil =>
          have hstep : workerStepGo s w ws = s := by
            unfold workerStepGo
            rw [hph, hq]
          rw [hstep]
          exact ⟨hw, hcc, hcs, hunf, hqn, hqs, hack, hpw, hpj⟩
        | cons x rest =>
          have hnomid : ∀ y ∈ ws.popped, y ≠ none := by
            refine (hpw ws hmem).2 ?_
            rw [hph]
            intro hc
            exact nomatch hc
          have hiw : isWorking ws = false := by
            unfold isWorking
            rw [hph]
            rfl
          cases x with
          | none =>
            have hstep : workerStepGo s w ws = { s with queue := rest, workers := s.workers.set w ⟨ws.popped ++ [none], .done⟩ } := by
              unfold workerStepGo
              rw [hph, hq]
              rfl
            rw [hstep]
            have hpn := sum_map_set poppedNoneOf s.workers w ws ⟨ws.popped ++ [none], .done⟩ hget
            have hps := sum_map_set poppedSomeOf s.workers w ws ⟨ws.popped ++ [none], .done⟩ hget
            have hwc := countP_set_ff isWorking s.workers w ws ⟨ws.popped ++ [none], .done⟩ hget hiw rfl
            have h1 : poppedNoneOf (⟨ws.popped ++ [none], .done⟩ : WorkerState)
                = poppedNoneOf ws + 1 := by
              show nNone (ws.popped ++ [none]) = nNone ws.popped + 1
              have := nNone_snoc ws.popped none
              simp at this
              omega
            have h2 : poppedSomeOf (⟨ws.popped ++ [none], .done⟩ : WorkerState)
                = poppedSomeOf ws := by
              show nSome (ws.popped ++ [none]) = nSome ws.popped
              have := nSome_snoc ws.popped none
              simp at this
              omega
            rw [hq] at hqn hqs
            have h3 := nNone_cons none rest
            simp at h3
            have h4 := nSome_cons none rest
            simp at h4
            simp only [poppedNone, poppedSome, workingCount] at hqn hqs hack
            refine ⟨by rw [List.length_set]; exact hw, hcc, hcs, hunf, ?_, ?_, ?_, ?_, ?_⟩
            · show nNone rest + ((s.workers.set w ⟨ws.popped ++ [none], .done⟩).map poppedNoneOf).sum = s.pushedS
              omega
            · show nSome rest + ((s.workers.set w ⟨ws.popped ++ [none], .done⟩).map poppedSomeOf).sum = s.pushedC
              omega
            · show s.doneCount + (s.workers.set w ⟨ws.popped ++ [none], .done⟩).countP isWorking = ((s.workers.set w ⟨ws.popped ++ [none], .done⟩).map poppedSomeOf).sum
              omega
            · intro u hu
              rcases List.mem_or_eq_of_mem_set hu with h | rfl
              · exact hpw u h
              · exact ⟨fun _ => ⟨ws.popped, rfl, hnomid⟩, fun hc => absurd rfl hc⟩
            · intro hp
              obtain ⟨hd, hq0, hw0⟩ := hpj hp
              rw [hq] at hq0
              simp only [workingCount] at hw0
              refine ⟨hd, ?_, ?_⟩
              · show nSome rest = 0
                omega
              · show (s.workers.set w ⟨ws.popped ++ [none], .done⟩).countP isWorking = 0
                omega
          | some c =>
            have hstep : workerStepGo s w ws = { s with queue := rest, workers := s.workers.set w ⟨ws.popped ++ [some c], .working⟩ } := by
              unfold workerStepGo
              rw [hph, hq]
              rfl
            rw [hstep]
            have hpn := sum_map_set poppedNoneOf s.workers w ws ⟨ws.popped ++ [some c], .working⟩ hget
            have hps := sum_map_set poppedSomeOf s.workers w ws ⟨ws.popped ++ [some c], .working⟩ hget
            have hwc := countP_set_ft isWorking s.workers w ws ⟨ws.popped ++ [some c], .working⟩ hget hiw rfl
            have h1 : poppedNoneOf (⟨ws.popped ++ [some c], .working⟩ : WorkerState)
                = poppedNoneOf ws := by
              show nNone (ws.popped ++ [some c]) = nNone ws.popped
              have := nNone_snoc ws.popped (some c)
              simp at this
              omega
            have h2 : poppedSomeOf (⟨ws.popped ++ [some c], .working⟩ : WorkerState)
                = poppedSomeOf ws + 1 := by
              show nSome (ws.popped ++ [some c]) = nSome ws.popped + 1
              have := nSome_snoc ws.popped (some c)
              simp at this
              omega
            rw [hq] at hqn hqs
            have h3 := nNone_cons (some c) rest
            simp at h3
            have h4 := nSome_cons (some c) rest
            simp at h4
            simp only [poppedNone, poppedSome, workingCount] at hqn hqs hack
            refine ⟨by rw [List.length_set]; exact hw, hcc, hcs, hunf, ?_, ?_, ?_, ?_, ?_⟩
            · show nNone rest + ((s.workers.set w ⟨ws.popped ++ [some c], .working⟩).map poppedNoneOf).sum = s.pushedS
              omega
            · show nSome rest + ((s.workers.set w ⟨ws.popped ++ [some c], .working⟩).map poppedSomeOf).sum = s.pushedC
              omega
            · show s.doneCount + (s.workers.set w ⟨ws.popped ++ [some c], .working⟩).countP isWorking = ((s.workers.set w ⟨ws.popped ++ [some c], .working⟩).map poppedSomeOf).sum
              omega
            · intro u hu
              rcases List.mem_or_eq_of_mem_set hu with h | rfl
              · exact hpw u h
              · exact ⟨fun hc => (nomatch hc), fun _ y hy => by
                  rcases List.mem_append.1 hy with h | h
                  · exact hnomid y h
                  · simp at h
                    simp [h]⟩
            · intro hp
              obtain ⟨hd, hq0, hw0⟩ := hpj hp
              rw [hq] at hq0
              have h5 : nSome (some c :: rest) = nSome rest + 1 := by
                have := nSome_cons (some c) rest
                simp at this
                omega
              omega
      | working =>
        have hstep : workerStepGo s w ws = { s with unfinished := s.unfinished - 1, doneCount := s.doneCount + 1, workers := s.workers.set w ⟨ws.popped, .ready⟩ } := by
          unfold workerStepGo
          rw [hph]
        rw [hstep]
        have hwcpos : 0 < workingCount s := by
          refine countP_pos_of_get? isWorking s.workers w ws hget ?_
          unfold isWorking
          rw [hph]
          rfl
        have hpn := sum_map_set poppedNoneOf s.workers w ws ⟨ws.popped, .ready⟩ hget
        have hps := sum_map_set poppedSomeOf s.workers w ws ⟨ws.popped, .ready⟩ hget
        have hiw : isWorking ws = true := by
          unfold isWorking
          rw [hph]
          rfl
        have hwc := countP_set_tf isWorking s.workers w ws ⟨ws.popped, .ready⟩ hget hiw rfl
        have h1 : poppedNoneOf (⟨ws.popped, .ready⟩ : WorkerState) = poppedNoneOf ws := rfl
        have h2 : poppedSomeOf (⟨ws.popped, .ready⟩ : WorkerState) = poppedSomeOf ws := rfl
        simp only [poppedNone, poppedSome, workingCount] at hqn hqs hack hwcpos
        have hu1 : 1 ≤ s.unfinished := by omega
        refine ⟨by rw [List.length_set]; exact hw, hcc, hcs, ?_, ?_, ?_, ?_, ?_, ?_⟩
        · show s.unfinished - 1 + (s.doneCount + 1) = s.pushedC + s.pushedS
          omega
        · show nNone s.queue + ((s.workers.set w ⟨ws.popped, .ready⟩).map poppedNoneOf).sum = s.pushedS
          omega
        · show nSome s.queue + ((s.workers.set w ⟨ws.popped, .ready⟩).map poppedSomeOf).sum = s.pushedC
          omega
        · show s.doneCount + 1 + (s.workers.set w ⟨ws.popped, .ready⟩).countP isWorking = ((s.workers.set w ⟨ws.popped, .ready⟩).map poppedSomeOf).sum
          omega
        · intro u hu
          rcases List.mem_or_eq_of_mem_set hu with h | rfl
          · exact hpw u h
          · exact ⟨fun hc => (nomatch hc), fun _ y hy =>
              (hpw ws hmem).2 (by rw [hph]; intro hc; exact nomatch hc) y hy⟩
        · intro hp
          obtain ⟨-, -, hw0⟩ := hpj hp
          simp only [workingCount] at hw0
          omega

theorem scanInv_run (lines : List String) (n : Nat) (sched : List (Option Nat)) :
    ScanInv lines n (scanRun lines n sched) := by
  suffices h : ∀ s, ScanInv lines n s → ScanInv lines n (sched.foldl (scanStep n) s) from
    h _ (scanInv_init lines n)
  induction sched with
  | nil => exact fun s hs => hs
  | cons a t ih => exact fun s hs => ih _ (scanInv_step lines n s a hs)

/-- C2: under any interleaving of the scan protocol, a completed
coordinator has pushed exactly `K = (candidates lines).length` candidates
and exactly `n` sentinels; a sentinel is pushed only after all `K`
candidates have been acknowledged by `task_done` (the `q.join()` barrier);
and every terminated worker popped exactly one sentinel — its final pop —
with no sentinel among its earlier pops. -/
theorem scan_join_then_sentinels (lines : List String) (n : Nat)
    (sched : List (Option Nat)) :
    ((scanRun lines n sched).coord = .finished →
      (scanRun lines n sched).pushedC = (candidates lines).length
      ∧ (scanRun lines n sched).pushedS = n)
    ∧ (0 < (scanRun lines n sched).pushedS →
        (scanRun lines n sched).doneCount = (candidates lines).length
        ∧ (scanRun lines n sched).pushedC = (candidates lines).length)
    ∧ (∀ ws ∈ (scanRun lines n sched).workers, ws.phase = .done →
        ∃ pre, ws.popped = pre ++ [none] ∧ ∀ x ∈ pre, x ≠ none) := by
  obtain ⟨hw, hcc, hcs, hunf, hqn, hqs, hack, hpw, hpj⟩ := scanInv_run lines n sched
  refine ⟨?_, ?_, ?_⟩
  · intro hf
    constructor
    · have h := hcc
      unfold coordCProp at h
      rw [hf] at h
      exact h
    · have h := hcs
      unfold coordSProp at h
      rw [hf] at h
      exact h
  · intro hs
    have hp : pastJoin (scanRun lines n sched).coord = true := by
      cases hco : (scanRun lines n sched).coord with
      | pushing rest =>
        exfalso
        have h := hcs
        unfold coordSProp at h
        rw [hco] at h
        omega
      | joining =>
        exfalso
        have h := hcs
        unfold coordSProp at h
        rw [hco] at h
        omega
      | sentinels k => rfl
      | finished => rfl
    obtain ⟨hd, -, -⟩ := hpj hp
    refine ⟨hd, ?_⟩
    cases hco : (scanRun lines n sched).coord with
    | pushing rest =>
      exfalso
      have h := hcs
      unfold coordSProp at h
      rw [hco] at h
      omega
    | joining =>
      exfalso
      have h := hcs
      unfold coordSProp at h
      rw [hco] at h
      omega
    | sentinels k =>
      have h := hcc
      unfold coordCProp at h
      rw [hco] at h
      exact h
    | finished =>
      have h := hcc
      unfold coordCProp at h
      rw [hco] at h
      exact h
  · intro ws hws hdone
    exact (hpw ws hws).1 hdone

/-- Witness for C2: a two-candidate wordlist with one worker, run to
completion. -/
theorem scan_join_witness :
    (scanRun ["a", "b"] 1
        [none, none, none, some 0, some 0, some 0, some 0, none, none, some 0, none]).coord
      = .finished
    ∧ (scanRun ["a", "b"] 1
        [none, none, none, some 0, some 0, some 0, some 0, none, none, some 0, none]).pushedC
      = (candidates ["a", "b"]).length
    ∧ (scanRun ["a", "b"] 1
        [none, none, none, some 0, some 0, some 0, some 0, none, none, some 0, none]).pushedS
      = 1 := by
  refine ⟨by decide, ?_, ?_⟩
  · exact ((scan_join_then_sentinels ["a", "b"] 1
      [none, none, none, some 0, some 0, some 0, some 0, none, none, some 0, none]).1
      (by decide)).1
  · exact ((scan_join_then_sentinels ["a", "b"] 1
      [none, none, none, some 0, some 0, some 0, some 0, none, none, some 0, none]).1
      (by decide)).2

/-- Counterexample to C8 as stated: `main` does not reject a `--threads`
value of 0 — the configuration is accepted and the scan begins (a
candidate is enqueued) with zero workers spawned. -/
theorem zero_threads_cex :
    threads_accepted 0 = true
    ∧ workers_spawned 0 = 0
    ∧ (scanRun ["bucket"] 0 [none]).pushedC = 1 := by
  refine ⟨rfl, rfl, by decide⟩

/-- C8 (amended): the program performs no validation of the thread count;
every integer is accepted at startup, and with 0 workers and a non-empty
wordlist the `q.join()` barrier can never complete (no schedule takes the
coordinator past the join), so the queue never drains. -/
theorem zero_threads_not_rejected (lines : List String) (sched : List (Option Nat))
    (t : Int) (hK : 0 < (candidates lines).length) :
    threads_accepted t = true
    ∧ pastJoin (scanRun lines 0 sched).coord = false := by
  refine ⟨rfl, ?_⟩
  obtain ⟨hw, hcc, hcs, hunf, hqn, hqs, hack, hpw, hpj⟩ := scanInv_run lines 0 sched
  by_contra hcon
  have hp : pastJoin (scanRun lines 0 sched).coord = true := by
    cases hx : pastJoin (scanRun lines 0 sched).coord
    · exact absurd hx hcon
    · rfl
  obtain ⟨hd, -, -⟩ := hpj hp
  have h0 : (scanRun lines 0 sched).workers = [] := List.length_eq_zero.mp hw
  have hps0 : poppedSome (scanRun lines 0 sched) = 0 := by
    unfold poppedSome
    rw [h0]
    rfl
  omega

/-- Witness for the amended C8 at a concrete non-empty wordlist. -/
theorem zero_threads_witness :
    0 < (candidates ["bucket"]).length
    ∧ pastJoin (scanRun ["bucket"] 0 [none, none, none]).coord = false :=
  ⟨by decide, (zero_threads_not_rejected ["bucket"] [none, none, none] 0 (by decide)).2⟩

/-! ## Invariant proofs for the sink protocol -/

theorem get?_eq_some_getD (l : List α) (i : Nat) (d : α) (h : i < l.length) :
    l.get? i = some (l.getD i d) := by
  rw [List.get?_eq_get h, List.getD_eq_get?, List.get?_eq_get h]
  rfl

theorem sinkScript_ne_nil (b : List String) : sinkScript b ≠ [] := by
  unfold sinkScript
  intro h
  exact nomatch h

theorem sinkInv_init (blocks : List (List String)) : SinkInv blocks (sinkInit blocks) := by
  refine ⟨by simp [sinkInit], [], List.nodup_nil, by simp, ?_, ?_, ?_⟩
  · intro i hi
    constructor
    · intro hin
      exact absurd hin (List.not_mem_nil i)
    · intro hnil
      have hg : (sinkInit blocks).progs.get? i
          = some (sinkScript (blocks.getD i [])) := by
        show (blocks.map sinkScript).get? i = _
        rw [List.get?_map, get?_eq_some_getD blocks i [] hi]
        rfl
      rw [hg] at hnil
      exact (sinkScript_ne_nil _ (Option.some.inj hnil)).elim
  · show (sinkInit blocks).file = (([] : List Nat).map (fun i => blocks.getD i [])).flatten
    rfl
  · intro i hi _
    show (blocks.map sinkScript).get? i = _
    rw [List.get?_map, get?_eq_some_getD blocks i [] hi]
    rfl

theorem sinkInv_step (blocks : List (List String)) (s : SinkState) (w : Nat)
    (h : SinkInv blocks s) : SinkInv blocks (sinkStep s w) := by
  obtain ⟨hlen, done, hnd, hbound, hmem, hlock⟩ := h
  cases hget : s.progs.get? w with
  | none =>
    have hstep : sinkStep s w = s := by
      unfold sinkStep
      rw [hget]
    rw [hstep]
    exact ⟨hlen, done, hnd, hbound, hmem, hlock⟩
  | some prog =>
    have hwlt : w < blocks.length := by
      obtain ⟨hl, -⟩ := List.get?_eq_some.mp hget
      omega
    cases prog with
    | nil =>
      have hstep : sinkStep s w = s := by
        unfold sinkStep
        rw [hget]
      rw [hstep]
      exact ⟨hlen, done, hnd, hbound, hmem, hlock⟩
    | cons a rest =>
      cases a with
      | acquire =>
        cases hl : s.lock with
        | some hld =>
          have hstep : sinkStep s w = s := by
            unfold sinkStep
            rw [hget, hl]
            rfl
          rw [hstep]
          exact ⟨hlen, done, hnd, hbound, hmem, hlock⟩
        | none =>
          rw [hl] at hlock
          obtain ⟨hfile, hunst⟩ := hlock
          have hwnd : w ∉ done := by
            intro hin
            have h2 := (hmem w hwlt).1 hin
            rw [hget] at h2
            exact nomatch (Option.some.inj h2)
          have hws := hunst w hwlt hwnd
          rw [hget] at hws
          have hprog := Option.some.inj hws
          unfold sinkScript at hprog
          have hrest : rest = (blocks.getD w []).map .append ++ [.release] := by
            injection hprog with h1 h2
          have hstep : sinkStep s w
              = { s with lock := some w, progs := s.progs.set w rest } := by
            unfold sinkStep
            rw [hget, hl]
            rfl
          rw [hstep]
          refine ⟨by rw [List.length_set]; exact hlen, done, hnd, hbound, ?_, ?_⟩
          · intro i hi
            by_cases hiw : i = w
            · subst hiw
              constructor
              · intro hin
                exact absurd hin hwnd
              · intro hnil
                exfalso
                have h2 : (s.progs.set i rest).get? i = some rest := by
                  rw [List.get?_set_eq, hget]
                  rfl
                rw [h2] at hnil
                have h3 := Option.some.inj hnil
                rw [hrest] at h3
                simp at h3
            · rw [List.get?_set_ne rest s.progs (fun hh => hiw hh.symm)]
              exact hmem i hi
          · refine ⟨hwlt, hwnd, ⟨0, Nat.zero_le _, ?_, ?_⟩, ?_⟩
            · have h2 : (s.progs.set w rest).get? w = some rest := by
                rw [List.get?_set_eq, hget]
                rfl
              rw [h2, hrest, List.drop_zero]
            · rw [List.take_zero, List.append_nil]
              exact hfile
            · intro i hi hnin hne
              rw [List.get?_set_ne rest s.progs (fun hh => hne hh.symm)]
              exact hunst i hi hnin
      | append line =>
        cases hl : s.lock with
        | none =>
          exfalso
          rw [hl] at hlock
          obtain ⟨-, hunst⟩ := hlock
          by_cases hin : w ∈ done
          · have h2 := (hmem w hwlt).1 hin
            rw [hget] at h2
            exact nomatch (Option.some.inj h2)
          · have h2 := hunst w hwlt hin
            rw [hget] at h2
            have h3 := Option.some.inj h2
            unfold sinkScript at h3
            injection h3 with h4 h5
            exact nomatch h4
        | some hld =>
          rw [hl] at hlock
          obtain ⟨hhlt, hhnd, ⟨k, hkle, hprogh, hfileh⟩, hothers⟩ := hlock
          have hwh : w = hld := by
            by_contra hne
            by_cases hin : w ∈ done
            · have h2 := (hmem w hwlt).1 hin
              rw [hget] at h2
              exact nomatch (Option.some.inj h2)
            · have h2 := hothers w hwlt hin hne
              rw [hget] at h2
              have h3 := Option.some.inj h2
              unfold sinkScript at h3
              injection h3 with h4 h5
              exact nomatch h4
          subst hwh
          rw [hget] at hprogh
          have hpe := Option.some.inj hprogh
          cases hdk : (blocks.getD w []).drop k with
          | nil =>
            exfalso
            rw [hdk] at hpe
            simp only [List.map_nil, List.nil_append] at hpe
            injection hpe with h3 h4
            exact nomatch h3
          | cons x xs =>
            rw [hdk] at hpe
            simp only [List.map_cons, List.cons_append] at hpe
            injection hpe with h3 h4
            have hlx : line = x := by injection h3
            have hklt : k < (blocks.getD w []).length := by
              by_contra hge
              push_neg at hge
              rw [List.drop_eq_nil_of_le hge] at hdk
              exact nomatch hdk
            have hgk : (blocks.getD w []).get? k = some x := by
              have h5 := List.get?_drop (blocks.getD w []) k 0
              rw [hdk] at h5
              simpa using h5.symm
            have hstep : sinkStep s w
                = { s with lock := some w, file := s.file ++ [line], progs := s.progs.set w rest } := by
              unfold sinkStep
              rw [hget, hl]
            rw [hstep]
            refine ⟨by rw [List.length_set]; exact hlen, done, hnd, hbound, ?_, ?_⟩
            · intro i hi
              by_cases hiw : i = w
              · subst hiw
                constructor
                · intro hin
                  exact absurd hin hhnd
                · intro hnil
                  exfalso
                  have h2 : (s.progs.set i rest).get? i = some rest := by
                    rw [List.get?_set_eq, hget]
                    rfl
                  rw [h2] at hnil
                  have h5 := Option.some.inj hnil
                  rw [h4] at h5
                  simp at h5
              · rw [List.get?_set_ne rest s.progs (fun hh => hiw hh.symm)]
                exact hmem i hi
            · refine ⟨hwlt, hhnd, ⟨k + 1, hklt, ?_, ?_⟩, ?_⟩
              · have h2 : (s.progs.set w rest).get? w = some rest := by
                  rw [List.get?_set_eq, hget]
                  rfl
                have hxs : (blocks.getD w []).drop (k + 1) = xs := by
                  rw [← List.tail_drop, hdk]
                  rfl
                rw [h2, hxs, h4]
              · have hgk2 : (blocks.getD w [])[k]? = some x := by
                  rw [← List.get?_eq_getElem?]
                  exact hgk
                rw [hfileh, List.take_succ, hgk2, hlx]
                simp
              · intro i hi hnin hne
                rw [List.get?_set_ne rest s.progs (fun hh => hne hh.symm)]
                exact hothers i hi hnin hne
      | release =>
        cases hl : s.lock with
        | none =>
          exfalso
          rw [hl] at hlock
          obtain ⟨-, hunst⟩ := hlock
          by_cases hin : w ∈ done
          · have h2 := (hmem w hwlt).1 hin
            rw [hget] at h2
            exact nomatch (Option.some.inj h2)
          · have h2 := hunst w hwlt hin
            rw [hget] at h2
            have h3 := Option.some.inj h2
            unfold sinkScript at h3
            injection h3 with h4 h5
            exact nomatch h4
        | some hld =>
          rw [hl] at hlock
          obtain ⟨hhlt, hhnd, ⟨k, hkle, hprogh, hfileh⟩, hothers⟩ := hlock
          have hwh : w = hld := by
            by_contra hne
            by_cases hin : w ∈ done
            · have h2 := (hmem w hwlt).1 hin
              rw [hget] at h2
              exact nomatch (Option.some.inj h2)
            · have h2 := hothers w hwlt hin hne
              rw [hget] at h2
              have h3 := Option.some.inj h2
              unfold sinkScript at h3
              injection h3 with h4 h5
              exact nomatch h4
          subst hwh
          rw [hget] at hprogh
          have hpe := Option.some.inj hprogh
          cases hdk : (blocks.getD w []).drop k with
          | cons x xs =>
            exfalso
            rw [hdk] at hpe
            simp only [List.map_cons, List.cons_append] at hpe
            injection hpe with h3 h4
            exact nomatch h3
          | nil =>
            rw [hdk] at hpe
            simp only [List.map_nil, List.nil_append] at hpe
            injection hpe with h3 h4
            have hlenk : (blocks.getD w []).length ≤ k := by
              by_contra hlt
              push_neg at hlt
              have h9 : (blocks.getD w []).drop k ≠ [] := by
                intro hnil
                have h10 := congrArg List.length hnil
                rw [List.length_drop, List.length_nil] at h10
                omega
              exact h9 hdk
            have htake : (blocks.getD w []).take k = blocks.getD w [] :=
              List.take_of_length_le hlenk
            have hstep : sinkStep s w
                = { s with lock := none, progs := s.progs.set w rest } := by
              unfold sinkStep
              rw [hget]
            rw [hstep]
            subst h4
            refine ⟨by rw [List.length_set]; exact hlen, done ++ [w], ?_, ?_, ?_, ?_, ?_⟩
            · rw [List.nodup_append]
              refine ⟨hnd, List.nodup_singleton w, ?_⟩
              intro a ha hb
              rw [List.mem_singleton] at hb
              subst hb
              exact hhnd ha
            · intro i hi
              rcases List.mem_append.1 hi with h5 | h5
              · exact hbound i h5
              · rw [List.mem_singleton] at h5
                subst h5
                exact hwlt
            · intro i hi
              by_cases hiw : i = w
              · subst hiw
                constructor
                · intro _
                  rw [List.get?_set_eq, hget]
                  rfl
                · intro _
                  exact List.mem_append.2 (Or.inr (List.mem_singleton.2 rfl))
              · rw [List.get?_set_ne [] s.progs (fun hh => hiw hh.symm)]
                constructor
                · intro hin
                  rcases List.mem_append.1 hin with h5 | h5
                  · exact (hmem i hi).1 h5
                  · rw [List.mem_singleton] at h5
                    exact absurd h5 hiw
                · intro h5
                  exact List.mem_append.2 (Or.inl ((hmem i hi).2 h5))
            · show (SinkState.file _) = _
              show s.file = ((done ++ [w]).map (fun i => blocks.getD i [])).flatten
              rw [hfileh, htake, List.map_append, List.flatten_append]
              simp
            · intro i hi hnin
              have hind : i ∉ done := fun h5 => hnin (List.mem_append.2 (Or.inl h5))
              have hinw : i ≠ w := fun h5 =>
                hnin (List.mem_append.2 (Or.inr (List.mem_singleton.2 h5)))
              rw [List.get?_set_ne [] s.progs (fun hh => hinw hh.symm)]
              exact hothers i hi hind hinw

theorem sinkInv_run (blocks : List (List String)) (sched : List Nat) :
    SinkInv blocks (sinkRun blocks sched) := by
  suffices h : ∀ s, SinkInv blocks s → SinkInv blocks (sched.foldl sinkStep s) from
    h _ (sinkInv_init blocks)
  induction sched with
  | nil => exact fun s hs => hs
  | cons a t ih => exact fun s hs => ih _ (sinkInv_step blocks s a hs)

/-- C3: under any interleaving of the sink protocol — where each worker's
`with lock:` block wraps the entire open-write-close sequence, so a
worker's script is acquire, append each line of its record, release — a
completed run's output file is a concatenation of the workers' whole
records in some order; in particular every `Bucket:` line sits contiguously
with its `  - Object:` lines, and no two workers' lines interleave. -/
theorem sink_writes_never_interleave (found : List (String × Option (List String)))
    (sched : List Nat)
    (hdone : sinkAllDone (sinkRun (sinkBlocks found) sched) = true) :
    ∃ order : List Nat,
      order.Perm (List.range found.length)
      ∧ (sinkRun (sinkBlocks found) sched).file
          = (order.map (fun i => (sinkBlocks found).getD i [])).flatten
      ∧ ∀ i, i < found.length →
          ∃ pre post, (sinkRun (sinkBlocks found) sched).file
            = pre ++ (sinkBlocks found).getD i [] ++ post := by
  obtain ⟨hlen, done, hnd, hbound, hmem, hlock⟩ := sinkInv_run (sinkBlocks found) sched
  have hblen : (sinkBlocks found).length = found.length := by
    simp [sinkBlocks]
  have hall : ∀ p ∈ (sinkRun (sinkBlocks found) sched).progs, p = [] := by
    intro p hp
    unfold sinkAllDone at hdone
    rw [List.all_eq_true] at hdone
    simpa using hdone p hp
  have hlnone : (sinkRun (sinkBlocks found) sched).lock = none := by
    cases hl : (sinkRun (sinkBlocks found) sched).lock with
    | none => rfl
    | some hld =>
      exfalso
      rw [hl] at hlock
      obtain ⟨-, -, ⟨k, -, hprogh, -⟩, -⟩ := hlock
      have hp := hall _ (List.get?_mem hprogh)
      simp at hp
  rw [hlnone] at hlock
  obtain ⟨hfile, -⟩ := hlock
  have hmemall : ∀ i, i < (sinkBlocks found).length → i ∈ done := by
    intro i hi
    refine (hmem i hi).2 ?_
    have hilt : i < (sinkRun (sinkBlocks found) sched).progs.length := by omega
    rw [List.get?_eq_get hilt]
    exact congrArg some (hall _ (List.get_mem _ _ hilt))
  have hperm : done.Perm (List.range found.length) := by
    rw [List.perm_ext_iff_of_nodup hnd (List.nodup_range _)]
    intro a
    rw [List.mem_range]
    constructor
    · intro ha
      have := hbound a ha
      omega
    · intro ha
      exact hmemall a (by omega)
  refine ⟨done, hperm, hfile, ?_⟩
  intro i hi
  have hidone : i ∈ done := hmemall i (by omega)
  obtain ⟨s1, t1, hsplit⟩ := List.append_of_mem hidone
  rw [hsplit, List.map_append, List.flatten_append, List.map_cons, List.flatten_cons]
    at hfile
  refine ⟨(s1.map (fun j => (sinkBlocks found).getD j [])).flatten,
    (t1.map (fun j => (sinkBlocks found).getD j [])).flatten, ?_⟩
  rw [hfile, List.append_assoc]

/-- Witness for C3: two workers writing records for buckets `a` and `b`,
with worker 1 attempting to acquire the lock in the middle of worker 0's
write (a blocked step); the final file is the two whole records in order. -/
theorem sink_interleave_witness :
    sinkAllDone (sinkRun (sinkBlocks [("a", none), ("b", none)])
        [0, 1, 0, 0, 1, 1, 1]) = true
    ∧ ∃ order : List Nat,
        order.Perm (List.range ([("a", none), ("b", none)]
          : List (String × Option (List String))).length)
        ∧ (sinkRun (sinkBlocks [("a", none), ("b", none)]) [0, 1, 0, 0, 1, 1, 1]).file
            = (order.map (fun i => (sinkBlocks [("a", none), ("b", none)]).getD i [])).flatten
        ∧ ∀ i, i < ([("a", none), ("b", none)]
              : List (String × Option (List String))).length →
            ∃ pre post,
              (sinkRun (sinkBlocks [("a", none), ("b", none)]) [0, 1, 0, 0, 1, 1, 1]).file
                = pre ++ (sinkBlocks [("a", none), ("b", none)]).getD i [] ++ post :=
  ⟨by decide,
    sink_writes_never_interleave [("a", none), ("b", none)] [0, 1, 0, 0, 1, 1, 1] (by decide)⟩

end S3xist
